import Mathlib

/-!
Verification of the board evaluator and minimax move selector of the
NoughtsAndCrosses repository (src/lib/game logic).

The TypeScript source operates on a 9-cell board `Cell[]` where a cell is
`'X' | 'O' | null`.  We embed boards as `List (Option Mark)`; JavaScript
out-of-range reads (`board[a]` yielding `undefined`, which is falsy like
`null`) are modelled by `List.getD _ none`.

The recursive `minimax` is embedded with an explicit fuel parameter
(`minimaxFuel`); `minimax` instantiates the fuel with the number of empty
cells, and `minimaxFuel_congr` proves that any fuel at least that large
yields the same value, so the fuel is a ghost parameter and the embedding
computes exactly what the source recursion computes.

The only effect in the source is `Math.floor(Math.random() * bestMoves.length)`
used for the final tie-break in `getBestMove`; it is modelled by an extra
argument `r : Nat` reduced modulo the candidate-list length, so that the
possible return values as `r` ranges over `Nat` are exactly the possible
return values of the source over all outcomes of `Math.random()`.
-/

inductive Mark : Type
| X : Mark
| O : Mark
deriving DecidableEq

def Mark.other : Mark → Mark
| Mark.X => Mark.O
| Mark.O => Mark.X

abbrev Cell : Type := Option Mark

abbrev Board : Type := List Cell

/-- The 8 fixed winning lines: 3 rows, 3 columns, 2 diagonals (source `LINES`). -/
def LINES : List (Nat × Nat × Nat) :=
  [(0, 1, 2), (3, 4, 5), (6, 7, 8), (0, 3, 6), (1, 4, 7), (2, 5, 8), (0, 4, 8), (2, 4, 6)]

/-- All three cells of line `t` hold mark `m`. -/
def LineAll (board : Board) (m : Mark) (t : Nat × Nat × Nat) : Prop :=
  board.getD t.1 none = some m ∧ board.getD t.2.1 none = some m ∧ board.getD t.2.2 none = some m

instance (board : Board) (m : Mark) (t : Nat × Nat × Nat) : Decidable (LineAll board m t) :=
  inferInstanceAs (Decidable (_ ∧ _ ∧ _))

/-- Some line of `LINES` is completed with mark `m`. -/
def HasLine (board : Board) (m : Mark) : Prop :=
  ∃ t ∈ LINES, LineAll board m t

instance (board : Board) (m : Mark) : Decidable (HasLine board m) :=
  inferInstanceAs (Decidable (∃ t, t ∈ LINES ∧ LineAll board m t))

/-- Loop body of the source `getWinner`: scan the given lines in order and
return the first one whose three cells are non-empty and equal. -/
def findLine (board : Board) : List (Nat × Nat × Nat) → Option (Mark × (Nat × Nat × Nat))
| [] => none
| (a, b, c) :: rest =>
  match board.getD a none with
  | some v =>
    if board.getD b none = some v ∧ board.getD c none = some v then some (v, (a, b, c))
    else findLine board rest
  | none => findLine board rest

/-- Source `getWinner`: `none` models `{winner: null, line: null}`, and
`some (m, t)` models `{winner: m, line: t}`. -/
def getWinner (board : Board) : Option (Mark × (Nat × Nat × Nat)) :=
  findLine board LINES

/-- Source `isDraw`: the board is fully occupied and has no winner. -/
def isDraw (board : Board) : Bool :=
  board.all Option.isSome && (getWinner board).isNone

/-- Source `emptyCells`: the indices of the empty cells, in increasing order. -/
def emptyCells (board : Board) : List Nat :=
  (List.range board.length).filter (fun i => (board.getD i none).isNone)

/-- Source `minimax`, with an explicit fuel bounding the recursion depth.
The two `| [] => 0` alternatives are unreachable: the preceding
full-board check guarantees that `emptyCells board` is non-empty there
(in the source the corresponding value is the initial `±Infinity`,
equally unreachable). -/
def minimaxFuel (ai human : Mark) (fuel : Nat) (board : Board) (isAiTurn : Bool)
    (depth : Nat) : Int :=
  if (getWinner board).map Prod.fst = some ai then 10 - (depth : Int)
  else if (getWinner board).map Prod.fst = some human then (depth : Int) - 10
  else if board.all Option.isSome then 0
  else
    match fuel with
    | 0 => 0
    | f + 1 =>
      if isAiTurn then
        match (emptyCells board).map
            (fun idx => minimaxFuel ai human f (board.set idx (some ai)) false (depth + 1)) with
        | [] => 0
        | s :: rest => rest.foldl max s
      else
        match (emptyCells board).map
            (fun idx => minimaxFuel ai human f (board.set idx (some human)) true (depth + 1)) with
        | [] => 0
        | s :: rest => rest.foldl min s

/-- Source `minimax`: the fuel is instantiated with the number of empty
cells, which `minimaxFuel_congr` below proves sufficient. -/
def minimax (board : Board) (isAiTurn : Bool) (ai human : Mark) (depth : Nat) : Int :=
  minimaxFuel ai human (emptyCells board).length board isAiTurn depth

/-- One step of the best-score/best-moves accumulation loop in `getBestMove`.
The first component is `none` while no move has been scored yet, modelling
the initial `bestScore = -Infinity`. -/
def bestStep (score : Nat → Int) (acc : Option Int × List Nat) (idx : Nat) :
    Option Int × List Nat :=
  match acc with
  | (none, _) => (some (score idx), [idx])
  | (some best, moves) =>
    if best < score idx then (some (score idx), [idx])
    else if score idx = best then (some best, moves ++ [idx])
    else (some best, moves)

/-- The loop of `getBestMove` over the candidate moves. -/
def chooseBest (score : Nat → Int) (empties : List Nat) : Option Int × List Nat :=
  empties.foldl (bestStep score) (none, [])

/-- The `bestMoves` list computed by the source `getBestMove`: all empty
indices whose root minimax score equals the maximal root score. -/
def bestMoves (board : Board) (ai human : Mark) : List Nat :=
  (chooseBest (fun idx => minimax (board.set idx (some ai)) false ai human 0)
    (emptyCells board)).2

/-- Source `getBestMove`.  `r` models the random draw: the source indexes
`bestMoves` with `Math.floor(Math.random() * bestMoves.length)`, a uniformly
random element of `[0, bestMoves.length)`; here the index is `r` reduced
modulo the length, so the set of possible results over all `r` coincides
with the set of possible results of the source. -/
def getBestMove (board : Board) (ai human : Mark) (r : Nat) : Option Nat :=
  if emptyCells board = [] then none
  else (bestMoves board ai human).get? (r % (bestMoves board ai human).length)

/-! ### List-level helper lemmas -/

lemma getD_set_self (b : Board) (i : Nat) (v : Cell) (h : i < b.length) :
    (b.set i v).getD i none = v := by
  induction b generalizing i with
  | nil => simp at h
  | cons a tl ih =>
    cases i with
    | zero => rfl
    | succ j => simpa using ih j (by simpa using h)

lemma getD_set_ne (b : Board) (i j : Nat) (v : Cell) (h : i ≠ j) :
    (b.set i v).getD j none = b.getD j none := by
  induction b generalizing i j with
  | nil => rfl
  | cons a tl ih =>
    cases i with
    | zero =>
      cases j with
      | zero => exact absurd rfl h
      | succ k => rfl
    | succ i' =>
      cases j with
      | zero => rfl
      | succ k => simpa using ih i' k (fun hh => h (by rw [hh]))

lemma foldl_max_mem (rest : List Int) (s : Int) : rest.foldl max s ∈ s :: rest := by
  induction rest generalizing s with
  | nil => simp
  | cons a tl ih =>
    simp only [List.foldl_cons]
    have h := ih (max s a)
    rcases List.mem_cons.mp h with h1 | h1
    · rcases max_choice s a with h2 | h2
      · exact List.mem_cons.mpr (Or.inl (h1.trans h2))
      · exact List.mem_cons.mpr (Or.inr (List.mem_cons.mpr (Or.inl (h1.trans h2))))
    · exact List.mem_cons_of_mem _ (List.mem_cons_of_mem _ h1)

lemma foldl_min_mem (rest : List Int) (s : Int) : rest.foldl min s ∈ s :: rest := by
  induction rest generalizing s with
  | nil => simp
  | cons a tl ih =>
    simp only [List.foldl_cons]
    have h := ih (min s a)
    rcases List.mem_cons.mp h with h1 | h1
    · rcases min_choice s a with h2 | h2
      · exact List.mem_cons.mpr (Or.inl (h1.trans h2))
      · exact List.mem_cons.mpr (Or.inr (List.mem_cons.mpr (Or.inl (h1.trans h2))))
    · exact List.mem_cons_of_mem _ (List.mem_cons_of_mem _ h1)

lemma foldl_max_init_le (rest : List Int) (s : Int) : s ≤ rest.foldl max s := by
  induction rest generalizing s with
  | nil => simp
  | cons a tl ih => exact le_trans (le_max_left s a) (ih (max s a))

lemma foldl_min_init_ge (rest : List Int) (s : Int) : rest.foldl min s ≤ s := by
  induction rest generalizing s with
  | nil => simp
  | cons a tl ih => exact le_trans (ih (min s a)) (min_le_left s a)

lemma foldl_max_le (rest : List Int) (s x : Int) (h : x ∈ s :: rest) :
    x ≤ rest.foldl max s := by
  induction rest generalizing s with
  | nil =>
    simp only [List.mem_singleton] at h
    subst h; simp
  | cons a tl ih =>
    simp only [List.foldl_cons]
    rcases List.mem_cons.mp h with h1 | h1
    · subst h1
      exact le_trans (le_max_left x a) (foldl_max_init_le tl _)
    · rcases List.mem_cons.mp h1 with h2 | h2
      · subst h2
        exact le_trans (le_max_right s x) (foldl_max_init_le tl _)
      · exact ih (max s a) (List.mem_cons_of_mem _ h2)

lemma foldl_min_le (rest : List Int) (s x : Int) (h : x ∈ s :: rest) :
    rest.foldl min s ≤ x := by
  induction rest generalizing s with
  | nil =>
    simp only [List.mem_singleton] at h
    subst h; simp
  | cons a tl ih =>
    simp only [List.foldl_cons]
    rcases List.mem_cons.mp h with h1 | h1
    · subst h1
      exact le_trans (foldl_min_init_ge tl _) (min_le_left x a)
    · rcases List.mem_cons.mp h1 with h2 | h2
      · subst h2
        exact le_trans (foldl_min_init_ge tl _) (min_le_right s x)
      · exact ih (min s a) (List.mem_cons_of_mem _ h2)

lemma filter_length_flip (p q : Nat → Bool) (l : List Nat) (i : Nat) (hi : i ∈ l)
    (hnd : l.Nodup) (hq : q i = false) (hp : p i = true)
    (hag : ∀ j ∈ l, j ≠ i → q j = p j) :
    (l.filter q).length + 1 = (l.filter p).length := by
  induction l with
  | nil => simp at hi
  | cons a tl ih =>
    rcases List.nodup_cons.mp hnd with ⟨hna, hnd2⟩
    rcases List.mem_cons.mp hi with h1 | h1
    · subst h1
      have htl : tl.filter q = tl.filter p :=
        List.filter_congr (fun j hj => hag j (List.mem_cons_of_mem _ hj) (fun e => hna (e ▸ hj)))
      simp [List.filter_cons, hq, hp, htl]
    · have haq : q a = p a := hag a (List.mem_cons_self _ _) (fun e => hna (e ▸ h1))
      have ihtl := ih h1 hnd2 (fun j hj hji => hag j (List.mem_cons_of_mem _ hj) hji)
      by_cases hpa : p a = true
      · have hqa : q a = true := haq.trans hpa
        simp only [List.filter_cons, hpa, hqa, if_true, List.length_cons]
        omega
      · have hqa : ¬ q a = true := fun hh => hpa (haq ▸ hh)
        simp only [List.filter_cons, if_neg hpa, if_neg hqa]
        exact ihtl

/-! ### emptyCells lemmas -/

lemma mem_emptyCells (b : Board) (i : Nat) :
    i ∈ emptyCells b ↔ i < b.length ∧ b.getD i none = none := by
  simp [emptyCells, List.mem_filter, List.mem_range, Option.isNone_iff_eq_none]

lemma emptyCells_nodup (b : Board) : (emptyCells b).Nodup :=
  List.Nodup.filter _ (List.nodup_range _)

lemma emptyCells_length_le (b : Board) : (emptyCells b).length ≤ b.length := by
  have h := List.length_filter_le (fun i => (b.getD i none).isNone) (List.range b.length)
  simpa [emptyCells, List.length_range] using h

lemma emptyCells_set_length (b : Board) (i : Nat) (m : Mark) (hi : i ∈ emptyCells b) :
    (emptyCells (b.set i (some m))).length + 1 = (emptyCells b).length := by
  rcases (mem_emptyCells b i).mp hi with ⟨hlt, hnone⟩
  have hlen : (b.set i (some m)).length = b.length := List.length_set b i (some m)
  have : emptyCells (b.set i (some m)) =
      (List.range b.length).filter (fun j => ((b.set i (some m)).getD j none).isNone) := by
    rw [emptyCells, hlen]
  rw [this, emptyCells]
  exact filter_length_flip _ _ (List.range b.length) i (List.mem_range.mpr hlt)
    (List.nodup_range _)
    (by rw [getD_set_self b i (some m) hlt]; rfl)
    (by rw [hnone]; rfl)
    (fun j _ hji => by rw [getD_set_ne b i j (some m) (fun e => hji e.symm)])

lemma emptyCells_set_lt (b : Board) (i : Nat) (m : Mark) (hi : i ∈ emptyCells b) :
    (emptyCells (b.set i (some m))).length < (emptyCells b).length := by
  have h := emptyCells_set_length b i m hi
  omega

lemma mem_emptyCells_set (b : Board) (i j : Nat) (v : Cell) (hij : i ≠ j)
    (hj : j ∈ emptyCells b) : j ∈ emptyCells (b.set i v) := by
  rw [mem_emptyCells] at hj ⊢
  refine ⟨by rw [List.length_set]; exact hj.1, ?_⟩
  rw [getD_set_ne b i j v hij]
  exact hj.2

lemma mem_emptyCells_set_rev (b : Board) (i j : Nat) (m : Mark) (hi : i < b.length)
    (hj : j ∈ emptyCells (b.set i (some m))) : j ≠ i ∧ j ∈ emptyCells b := by
  rw [mem_emptyCells] at hj
  rcases hj with ⟨hjl, hjn⟩
  rw [List.length_set] at hjl
  have hji : j ≠ i := by
    intro e
    rw [e, getD_set_self b i (some m) hi] at hjn
    exact Option.noConfusion hjn
  refine ⟨hji, (mem_emptyCells b j).mpr ⟨hjl, ?_⟩⟩
  rw [getD_set_ne b i j (some m) (fun e => hji e.symm)] at hjn
  exact hjn

lemma emptyCells_eq_nil (b : Board) : emptyCells b = [] ↔ b.all Option.isSome = true := by
  rw [emptyCells, List.filter_eq_nil_iff]
  constructor
  · intro h
    rw [List.all_eq_true]
    intro x hx
    rcases List.mem_iff_getElem.mp hx with ⟨n, hn, rfl⟩
    have h2 := h n (List.mem_range.mpr hn)
    rw [List.getD_eq_getElem b none hn] at h2
    cases hb : b[n] with
    | some v => rfl
    | none => exact absurd (by rw [hb]; rfl) h2
  · intro h n hn
    rw [List.all_eq_true] at h
    have hn2 := List.mem_range.mp hn
    rw [List.getD_eq_getElem b none hn2]
    have h2 := h _ (List.mem_iff_getElem.mpr ⟨n, hn2, rfl⟩)
    cases hb : b[n] with
    | some v => simp
    | none => rw [hb] at h2; exact absurd h2 (by simp)

lemma emptyCells_ne_nil (b : Board) : emptyCells b ≠ [] ↔ ¬ b.all Option.isSome = true :=
  not_congr (emptyCells_eq_nil b)

/-! ### findLine / getWinner lemmas -/

lemma findLine_eq_none (b : Board) (l : List (Nat × Nat × Nat)) :
    findLine b l = none ↔ ∀ t ∈ l, ∀ m, ¬ LineAll b m t := by
  induction l with
  | nil => simp [findLine]
  | cons t0 rest ih =>
    obtain ⟨x, y, z⟩ := t0
    cases hx : b.getD x none with
    | none =>
      simp only [findLine, hx]
      rw [ih]
      constructor
      · intro h t2 ht2 m
        rcases List.mem_cons.mp ht2 with h1 | h1
        · subst h1
          intro hla
          rw [hla.1] at hx
          exact Option.noConfusion hx
        · exact h t2 h1 m
      · intro h t2 ht2 m
        exact h t2 (List.mem_cons_of_mem _ ht2) m
    | some v =>
      by_cases hyz : b.getD y none = some v ∧ b.getD z none = some v
      · simp only [findLine, hx, if_pos hyz]
        constructor
        · intro h
          exact Option.noConfusion h
        · intro h
          exact absurd (show LineAll b v (x, y, z) from ⟨hx, hyz.1, hyz.2⟩)
            (h _ (List.mem_cons_self _ _) v)
      · simp only [findLine, hx, if_neg hyz]
        rw [ih]
        constructor
        · intro h t2 ht2 m
          rcases List.mem_cons.mp ht2 with h1 | h1
          · subst h1
            intro hla
            have hmv : some m = some v := hla.1.symm.trans hx
            have : m = v := Option.some.inj hmv
            subst this
            exact hyz ⟨hla.2.1, hla.2.2⟩
          · exact h t2 h1 m
        · intro h t2 ht2 m
          exact h t2 (List.mem_cons_of_mem _ ht2) m

lemma findLine_some (b : Board) (l : List (Nat × Nat × Nat)) (m : Mark) (t : Nat × Nat × Nat)
    (h : findLine b l = some (m, t)) : t ∈ l ∧ LineAll b m t := by
  induction l with
  | nil => exact Option.noConfusion h
  | cons t0 rest ih =>
    obtain ⟨x, y, z⟩ := t0
    cases hx : b.getD x none with
    | none =>
      simp only [findLine, hx] at h
      rcases ih h with ⟨h1, h2⟩
      exact ⟨List.mem_cons_of_mem _ h1, h2⟩
    | some v =>
      by_cases hyz : b.getD y none = some v ∧ b.getD z none = some v
      · simp only [findLine, hx, if_pos hyz] at h
        obtain ⟨hm, ht⟩ := Prod.mk.injEq .. ▸ Option.some.inj h
        subst hm
        subst ht
        exact ⟨List.mem_cons_self _ _, ⟨hx, hyz.1, hyz.2⟩⟩
      · simp only [findLine, hx, if_neg hyz] at h
        rcases ih h with ⟨h1, h2⟩
        exact ⟨List.mem_cons_of_mem _ h1, h2⟩

lemma findLine_first (b : Board) (pre post : List (Nat × Nat × Nat)) (m : Mark)
    (t : Nat × Nat × Nat) (hpre : ∀ t2 ∈ pre, ∀ m2, ¬ LineAll b m2 t2) (hla : LineAll b m t) :
    findLine b (pre ++ t :: post) = some (m, t) := by
  induction pre with
  | nil =>
    obtain ⟨x, y, z⟩ := t
    simp only [List.nil_append, findLine, hla.1]
    rw [if_pos ⟨hla.2.1, hla.2.2⟩]
  | cons t0 tl ih =>
    obtain ⟨x, y, z⟩ := t0
    have h0 : ∀ m2, ¬ LineAll b m2 (x, y, z) := hpre _ (List.mem_cons_self _ _)
    have htl := ih (fun t2 ht2 => hpre t2 (List.mem_cons_of_mem _ ht2))
    cases hx : b.getD x none with
    | none => simp only [List.cons_append, findLine, hx]; exact htl
    | some v =>
      have hyz : ¬ (b.getD y none = some v ∧ b.getD z none = some v) :=
        fun hh => h0 v ⟨hx, hh.1, hh.2⟩
      simp only [List.cons_append, findLine, hx, if_neg hyz]
      exact htl

lemma getWinner_eq_none (b : Board) : getWinner b = none ↔ ∀ m, ¬ HasLine b m := by
  rw [getWinner, findLine_eq_none]
  constructor
  · rintro h m ⟨t, ht, hla⟩
    exact h t ht m hla
  · intro h t ht m hla
    exact h m ⟨t, ht, hla⟩

lemma getWinner_some (b : Board) (m : Mark) (t : Nat × Nat × Nat)
    (h : getWinner b = some (m, t)) : t ∈ LINES ∧ LineAll b m t :=
  findLine_some b LINES m t h

lemma getWinner_mark (b : Board) (m : Mark) (hw : HasLine b m)
    (huniq : ∀ m2 t, t ∈ LINES → LineAll b m2 t → m2 = m) :
    ∃ t, getWinner b = some (m, t) ∧ t ∈ LINES ∧ LineAll b m t := by
  cases hg : getWinner b with
  | none => exact absurd hw ((getWinner_eq_none b).mp hg m)
  | some p =>
    obtain ⟨m2, t2⟩ := p
    have hs := getWinner_some b m2 t2 hg
    have he : m2 = m := huniq m2 t2 hs.1 hs.2
    subst he
    exact ⟨t2, rfl, hs⟩

lemma mark_cases : ∀ a h m : Mark, a ≠ h → m = a ∨ m = h := by
  intro a h m hne
  cases a <;> cases h <;> cases m <;> simp_all

lemma mark_other_of_ne : ∀ a h : Mark, a ≠ h → h = a.other := by
  intro a h hne
  cases a <;> cases h <;> simp_all [Mark.other]

/-! ### minimaxFuel unfolding lemmas -/

lemma minimaxFuel_winner_ai (ai hu : Mark) (f : Nat) (b : Board) (t : Bool) (d : Nat)
    (h : (getWinner b).map Prod.fst = some ai) :
    minimaxFuel ai hu f b t d = 10 - (d : Int) := by
  rw [minimaxFuel.eq_def, if_pos h]

lemma minimaxFuel_winner_hu (ai hu : Mark) (f : Nat) (b : Board) (t : Bool) (d : Nat)
    (h1 : ¬ (getWinner b).map Prod.fst = some ai)
    (h2 : (getWinner b).map Prod.fst = some hu) :
    minimaxFuel ai hu f b t d = (d : Int) - 10 := by
  rw [minimaxFuel.eq_def, if_neg h1, if_pos h2]

lemma minimaxFuel_full (ai hu : Mark) (f : Nat) (b : Board) (t : Bool) (d : Nat)
    (h1 : ¬ (getWinner b).map Prod.fst = some ai)
    (h2 : ¬ (getWinner b).map Prod.fst = some hu)
    (h3 : b.all Option.isSome = true) :
    minimaxFuel ai hu f b t d = 0 := by
  rw [minimaxFuel.eq_def, if_neg h1, if_neg h2, if_pos h3]

lemma minimaxFuel_succ_ai (ai hu : Mark) (f : Nat) (b : Board) (d : Nat)
    (h1 : ¬ (getWinner b).map Prod.fst = some ai)
    (h2 : ¬ (getWinner b).map Prod.fst = some hu)
    (h3 : ¬ b.all Option.isSome = true) :
    minimaxFuel ai hu (f + 1) b true d =
      match (emptyCells b).map
          (fun idx => minimaxFuel ai hu f (b.set idx (some ai)) false (d + 1)) with
      | [] => 0
      | s :: rest => rest.foldl max s := by
  rw [minimaxFuel, if_neg h1, if_neg h2, if_neg h3, if_pos rfl]

lemma minimaxFuel_succ_hu (ai hu : Mark) (f : Nat) (b : Board) (d : Nat)
    (h1 : ¬ (getWinner b).map Prod.fst = some ai)
    (h2 : ¬ (getWinner b).map Prod.fst = some hu)
    (h3 : ¬ b.all Option.isSome = true) :
    minimaxFuel ai hu (f + 1) b false d =
      match (emptyCells b).map
          (fun idx => minimaxFuel ai hu f (b.set idx (some hu)) true (d + 1)) with
      | [] => 0
      | s :: rest => rest.foldl min s := by
  rw [minimaxFuel, if_neg h1, if_neg h2, if_neg h3]
  rfl

lemma minimaxFuel_congr (ai hu : Mark) :
    ∀ f g : Nat, ∀ b : Board, ∀ t : Bool, ∀ d : Nat,
      (emptyCells b).length ≤ f → (emptyCells b).length ≤ g →
      minimaxFuel ai hu f b t d = minimaxFuel ai hu g b t d := by
  intro f
  induction f with
  | zero =>
    intro g b t d hf hg
    have hnil : emptyCells b = [] := List.length_eq_zero.mp (Nat.le_zero.mp hf)
    have hfull : b.all Option.isSome = true := (emptyCells_eq_nil b).mp hnil
    by_cases h1 : (getWinner b).map Prod.fst = some ai
    · rw [minimaxFuel_winner_ai ai hu 0 b t d h1, minimaxFuel_winner_ai ai hu g b t d h1]
    · by_cases h2 : (getWinner b).map Prod.fst = some hu
      · rw [minimaxFuel_winner_hu ai hu 0 b t d h1 h2, minimaxFuel_winner_hu ai hu g b t d h1 h2]
      · rw [minimaxFuel_full ai hu 0 b t d h1 h2 hfull, minimaxFuel_full ai hu g b t d h1 h2 hfull]
  | succ f ih =>
    intro g b t d hf hg
    by_cases h1 : (getWinner b).map Prod.fst = some ai
    · rw [minimaxFuel_winner_ai ai hu _ b t d h1, minimaxFuel_winner_ai ai hu g b t d h1]
    · by_cases h2 : (getWinner b).map Prod.fst = some hu
      · rw [minimaxFuel_winner_hu ai hu _ b t d h1 h2, minimaxFuel_winner_hu ai hu g b t d h1 h2]
      · by_cases h3 : b.all Option.isSome = true
        · rw [minimaxFuel_full ai hu _ b t d h1 h2 h3, minimaxFuel_full ai hu g b t d h1 h2 h3]
        · have hne : emptyCells b ≠ [] := (emptyCells_ne_nil b).mpr h3
          have hlen : 1 ≤ (emptyCells b).length := List.length_pos.mpr hne
          obtain ⟨g2, rfl⟩ : ∃ g2, g = g2 + 1 := by
            cases g with
            | zero => omega
            | succ g2 => exact ⟨g2, rfl⟩
          have hmapeq : ∀ (m : Mark) (tn : Bool),
              (emptyCells b).map
                (fun idx => minimaxFuel ai hu f (b.set idx (some m)) tn (d + 1)) =
              (emptyCells b).map
                (fun idx => minimaxFuel ai hu g2 (b.set idx (some m)) tn (d + 1)) := by
            intro m tn
            apply List.map_congr_left
            intro i hi
            have hdec := emptyCells_set_length b i m hi
            exact ih g2 (b.set i (some m)) tn (d + 1) (by omega) (by omega)
          cases t with
          | true =>
            rw [minimaxFuel_succ_ai ai hu f b d h1 h2 h3,
              minimaxFuel_succ_ai ai hu g2 b d h1 h2 h3, hmapeq ai false]
          | false =>
            rw [minimaxFuel_succ_hu ai hu f b d h1 h2 h3,
              minimaxFuel_succ_hu ai hu g2 b d h1 h2 h3, hmapeq hu true]

/-! ### minimax-level lemmas -/

lemma minimax_eq_fuel (b : Board) (t : Bool) (ai hu : Mark) (d f : Nat)
    (hf : (emptyCells b).length ≤ f) : minimax b t ai hu d = minimaxFuel ai hu f b t d := by
  rw [minimax]
  exact minimaxFuel_congr ai hu _ f b t d (le_refl _) hf

lemma minimax_winner_ai (ai hu : Mark) (b : Board) (t : Bool) (d : Nat)
    (h : (getWinner b).map Prod.fst = some ai) : minimax b t ai hu d = 10 - (d : Int) :=
  minimaxFuel_winner_ai ai hu _ b t d h

lemma minimax_winner_hu (ai hu : Mark) (b : Board) (t : Bool) (d : Nat)
    (h1 : ¬ (getWinner b).map Prod.fst = some ai)
    (h2 : (getWinner b).map Prod.fst = some hu) : minimax b t ai hu d = (d : Int) - 10 :=
  minimaxFuel_winner_hu ai hu _ b t d h1 h2

lemma minimax_full (ai hu : Mark) (b : Board) (t : Bool) (d : Nat)
    (h1 : ¬ (getWinner b).map Prod.fst = some ai)
    (h2 : ¬ (getWinner b).map Prod.fst = some hu)
    (h3 : b.all Option.isSome = true) : minimax b t ai hu d = 0 :=
  minimaxFuel_full ai hu _ b t d h1 h2 h3

lemma minimax_rec_ai (ai hu : Mark) (b : Board) (d : Nat)
    (h1 : ¬ (getWinner b).map Prod.fst = some ai)
    (h2 : ¬ (getWinner b).map Prod.fst = some hu)
    (h3 : ¬ b.all Option.isSome = true) :
    ∃ s rest,
      (emptyCells b).map (fun idx => minimax (b.set idx (some ai)) false ai hu (d + 1)) =
        s :: rest ∧
      minimax b true ai hu d = rest.foldl max s := by
  have hne : emptyCells b ≠ [] := (emptyCells_ne_nil b).mpr h3
  have hpos : 0 < (emptyCells b).length := List.length_pos.mpr hne
  obtain ⟨f, hf⟩ : ∃ f, (emptyCells b).length = f + 1 := ⟨(emptyCells b).length - 1, by omega⟩
  have hmap : (emptyCells b).map
        (fun idx => minimaxFuel ai hu f (b.set idx (some ai)) false (d + 1)) =
      (emptyCells b).map (fun idx => minimax (b.set idx (some ai)) false ai hu (d + 1)) := by
    apply List.map_congr_left
    intro i hi
    have hdec := emptyCells_set_length b i ai hi
    rw [minimax_eq_fuel _ _ _ _ _ f (by omega)]
  cases hm : (emptyCells b).map (fun idx => minimax (b.set idx (some ai)) false ai hu (d + 1)) with
  | nil => exact absurd (List.map_eq_nil_iff.mp hm) hne
  | cons s rest =>
    refine ⟨s, rest, rfl, ?_⟩
    rw [minimax_eq_fuel b true ai hu d (f + 1) (by omega),
      minimaxFuel_succ_ai ai hu f b d h1 h2 h3, hmap, hm]

lemma minimax_rec_hu (ai hu : Mark) (b : Board) (d : Nat)
    (h1 : ¬ (getWinner b).map Prod.fst = some ai)
    (h2 : ¬ (getWinner b).map Prod.fst = some hu)
    (h3 : ¬ b.all Option.isSome = true) :
    ∃ s rest,
      (emptyCells b).map (fun idx => minimax (b.set idx (some hu)) true ai hu (d + 1)) =
        s :: rest ∧
      minimax b false ai hu d = rest.foldl min s := by
  have hne : emptyCells b ≠ [] := (emptyCells_ne_nil b).mpr h3
  have hpos : 0 < (emptyCells b).length := List.length_pos.mpr hne
  obtain ⟨f, hf⟩ : ∃ f, (emptyCells b).length = f + 1 := ⟨(emptyCells b).length - 1, by omega⟩
  have hmap : (emptyCells b).map
        (fun idx => minimaxFuel ai hu f (b.set idx (some hu)) true (d + 1)) =
      (emptyCells b).map (fun idx => minimax (b.set idx (some hu)) true ai hu (d + 1)) := by
    apply List.map_congr_left
    intro i hi
    have hdec := emptyCells_set_length b i hu hi
    rw [minimax_eq_fuel _ _ _ _ _ f (by omega)]
  cases hm : (emptyCells b).map (fun idx => minimax (b.set idx (some hu)) true ai hu (d + 1)) with
  | nil => exact absurd (List.map_eq_nil_iff.mp hm) hne
  | cons s rest =>
    refine ⟨s, rest, rfl, ?_⟩
    rw [minimax_eq_fuel b false ai hu d (f + 1) (by omega),
      minimaxFuel_succ_hu ai hu f b d h1 h2 h3, hmap, hm]

lemma minimax_ai_exists_child (ai hu : Mark) (b : Board) (d : Nat)
    (h1 : ¬ (getWinner b).map Prod.fst = some ai)
    (h2 : ¬ (getWinner b).map Prod.fst = some hu)
    (h3 : ¬ b.all Option.isSome = true) :
    ∃ i ∈ emptyCells b,
      minimax b true ai hu d = minimax (b.set i (some ai)) false ai hu (d + 1) := by
  obtain ⟨s, rest, hm, hv⟩ := minimax_rec_ai ai hu b d h1 h2 h3
  have hmem : rest.foldl max s ∈ s :: rest := foldl_max_mem rest s
  rw [← hm] at hmem
  rcases List.mem_map.mp hmem with ⟨i, hi, he⟩
  exact ⟨i, hi, by rw [hv, ← he]⟩

lemma minimax_hu_exists_child (ai hu : Mark) (b : Board) (d : Nat)
    (h1 : ¬ (getWinner b).map Prod.fst = some ai)
    (h2 : ¬ (getWinner b).map Prod.fst = some hu)
    (h3 : ¬ b.all Option.isSome = true) :
    ∃ i ∈ emptyCells b,
      minimax b false ai hu d = minimax (b.set i (some hu)) true ai hu (d + 1) := by
  obtain ⟨s, rest, hm, hv⟩ := minimax_rec_hu ai hu b d h1 h2 h3
  have hmem : rest.foldl min s ∈ s :: rest := foldl_min_mem rest s
  rw [← hm] at hmem
  rcases List.mem_map.mp hmem with ⟨i, hi, he⟩
  exact ⟨i, hi, by rw [hv, ← he]⟩

lemma minimax_hu_le_child (ai hu : Mark) (b : Board) (d i : Nat)
    (h1 : ¬ (getWinner b).map Prod.fst = some ai)
    (h2 : ¬ (getWinner b).map Prod.fst = some hu)
    (h3 : ¬ b.all Option.isSome = true) (hi : i ∈ emptyCells b) :
    minimax b false ai hu d ≤ minimax (b.set i (some hu)) true ai hu (d + 1) := by
  obtain ⟨s, rest, hm, hv⟩ := minimax_rec_hu ai hu b d h1 h2 h3
  have hmem : minimax (b.set i (some hu)) true ai hu (d + 1) ∈ s :: rest := by
    rw [← hm]
    exact List.mem_map_of_mem _ hi
  rw [hv]
  exact foldl_min_le rest s _ hmem

lemma minimaxFuel_bounds (ai hu : Mark) :
    ∀ f : Nat, ∀ b : Board, ∀ t : Bool, ∀ d : Nat,
      (emptyCells b).length ≤ f → d + (emptyCells b).length ≤ 10 →
      (d : Int) - 10 ≤ minimaxFuel ai hu f b t d ∧ minimaxFuel ai hu f b t d ≤ 10 - (d : Int) := by
  intro f
  induction f with
  | zero =>
    intro b t d hf hd
    by_cases h1 : (getWinner b).map Prod.fst = some ai
    · rw [minimaxFuel_winner_ai ai hu 0 b t d h1]
      constructor <;> omega
    · by_cases h2 : (getWinner b).map Prod.fst = some hu
      · rw [minimaxFuel_winner_hu ai hu 0 b t d h1 h2]
        constructor <;> omega
      · have hnil : emptyCells b = [] := List.length_eq_zero.mp (Nat.le_zero.mp hf)
        have hfull : b.all Option.isSome = true := (emptyCells_eq_nil b).mp hnil
        rw [minimaxFuel_full ai hu 0 b t d h1 h2 hfull]
        constructor <;> omega
  | succ f ih =>
    intro b t d hf hd
    by_cases h1 : (getWinner b).map Prod.fst = some ai
    · rw [minimaxFuel_winner_ai ai hu _ b t d h1]
      constructor <;> omega
    · by_cases h2 : (getWinner b).map Prod.fst = some hu
      · rw [minimaxFuel_winner_hu ai hu _ b t d h1 h2]
        constructor <;> omega
      · by_cases h3 : b.all Option.isSome = true
        · rw [minimaxFuel_full ai hu _ b t d h1 h2 h3]
          constructor <;> omega
        · have hne : emptyCells b ≠ [] := (emptyCells_ne_nil b).mpr h3
          cases t with
          | true =>
            rw [minimaxFuel_succ_ai ai hu f b d h1 h2 h3]
            cases hm : (emptyCells b).map
                (fun idx => minimaxFuel ai hu f (b.set idx (some ai)) false (d + 1)) with
            | nil => exact absurd (List.map_eq_nil_iff.mp hm) hne
            | cons s rest =>
              have hmem : rest.foldl max s ∈ s :: rest := foldl_max_mem rest s
              rw [← hm] at hmem
              rcases List.mem_map.mp hmem with ⟨i, hi, he⟩
              have hdec := emptyCells_set_length b i ai hi
              have hch := ih (b.set i (some ai)) false (d + 1) (by omega) (by omega)
              rw [he] at hch
              rcases hch with ⟨hlo, hhi⟩
              constructor <;> push_cast at hlo hhi ⊢ <;> omega
          | false =>
            rw [minimaxFuel_succ_hu ai hu f b d h1 h2 h3]
            cases hm : (emptyCells b).map
                (fun idx => minimaxFuel ai hu f (b.set idx (some hu)) true (d + 1)) with
            | nil => exact absurd (List.map_eq_nil_iff.mp hm) hne
            | cons s rest =>
              have hmem : rest.foldl min s ∈ s :: rest := foldl_min_mem rest s
              rw [← hm] at hmem
              rcases List.mem_map.mp hmem with ⟨i, hi, he⟩
              have hdec := emptyCells_set_length b i hu hi
              have hch := ih (b.set i (some hu)) true (d + 1) (by omega) (by omega)
              rw [he] at hch
              rcases hch with ⟨hlo, hhi⟩
              constructor <;> push_cast at hlo hhi ⊢ <;> omega

lemma minimax_bounds (ai hu : Mark) (b : Board) (t : Bool) (d : Nat)
    (hd : d + (emptyCells b).length ≤ 10) :
    (d : Int) - 10 ≤ minimax b t ai hu d ∧ minimax b t ai hu d ≤ 10 - (d : Int) :=
  minimaxFuel_bounds ai hu (emptyCells b).length b t d (le_refl _) hd

/-! ### Lines under cell updates -/

lemma hasLine_of_winner_map (b : Board) (m : Mark)
    (h : (getWinner b).map Prod.fst = some m) : HasLine b m := by
  cases hg : getWinner b with
  | none => rw [hg] at h; exact Option.noConfusion h
  | some p =>
    obtain ⟨m2, t2⟩ := p
    rw [hg, Option.map_some'] at h
    have he : m2 = m := Option.some.inj h
    subst he
    have hs := getWinner_some b m2 t2 hg
    exact ⟨t2, hs.1, hs.2⟩

lemma getD_set_elim (b : Board) (i p : Nat) (v : Cell) (m : Mark) (hv : v ≠ some m)
    (h : (b.set i v).getD p none = some m) : b.getD p none = some m := by
  by_cases hip : i = p
  · subst hip
    by_cases hlen : i < b.length
    · rw [getD_set_self b i v hlen] at h
      exact absurd h hv
    · rw [List.set_eq_of_length_le (by omega)] at h
      exact h
  · rw [getD_set_ne b i p v hip] at h
    exact h

lemma lineAll_set_elim (b : Board) (i : Nat) (v : Cell) (m : Mark) (t : Nat × Nat × Nat)
    (hv : v ≠ some m) (h : LineAll (b.set i v) m t) : LineAll b m t :=
  ⟨getD_set_elim b i t.1 v m hv h.1, getD_set_elim b i t.2.1 v m hv h.2.1,
    getD_set_elim b i t.2.2 v m hv h.2.2⟩

lemma hasLine_set_elim (b : Board) (i : Nat) (v : Cell) (m : Mark) (hv : v ≠ some m)
    (h : HasLine (b.set i v) m) : HasLine b m := by
  obtain ⟨t, ht, hla⟩ := h
  exact ⟨t, ht, lineAll_set_elim b i v m t hv hla⟩

lemma lineAll_set_keep (bb : Board) (j : Nat) (v : Cell) (m : Mark) (t : Nat × Nat × Nat)
    (hj : bb.getD j none ≠ some m) (h : LineAll bb m t) : LineAll (bb.set j v) m t := by
  obtain ⟨h1, h2, h3⟩ := h
  have k : ∀ p, bb.getD p none = some m → (bb.set j v).getD p none = some m := by
    intro p hp
    have hjp : j ≠ p := fun e => hj (e ▸ hp)
    rw [getD_set_ne bb j p v hjp]
    exact hp
  exact ⟨k _ h1, k _ h2, k _ h3⟩

lemma hasLine_set_keep (bb : Board) (j : Nat) (v : Cell) (m : Mark)
    (hj : bb.getD j none ≠ some m) (h : HasLine bb m) : HasLine (bb.set j v) m := by
  obtain ⟨t, ht, hla⟩ := h
  exact ⟨t, ht, lineAll_set_keep bb j v m t hj hla⟩

/-- If the human to move has no immediate winning move (and none already),
the position is worth at least `d - 8` for the AI: the human cannot win
before two further plies have been played. -/
lemma minimax_no_threat_ge (ai hu : Mark) (b : Board) (d : Nat)
    (hd : d + (emptyCells b).length ≤ 10) (hd8 : d ≤ 8)
    (hhu : ¬ HasLine b hu)
    (hall : ∀ i ∈ emptyCells b, ¬ HasLine (b.set i (some hu)) hu) :
    (d : Int) - 8 ≤ minimax b false ai hu d := by
  by_cases h1 : (getWinner b).map Prod.fst = some ai
  · rw [minimax_winner_ai ai hu b false d h1]
    omega
  · have h2 : ¬ (getWinner b).map Prod.fst = some hu :=
      fun hh => hhu (hasLine_of_winner_map b hu hh)
    by_cases h3 : b.all Option.isSome = true
    · rw [minimax_full ai hu b false d h1 h2 h3]
      omega
    · obtain ⟨i, hi, he⟩ := minimax_hu_exists_child ai hu b d h1 h2 h3
      rw [he]
      have hhub2 : ¬ HasLine (b.set i (some hu)) hu := hall i hi
      by_cases g1 : (getWinner (b.set i (some hu))).map Prod.fst = some ai
      · rw [minimax_winner_ai ai hu _ true (d + 1) g1]
        push_cast
        omega
      · have g2 : ¬ (getWinner (b.set i (some hu))).map Prod.fst = some hu :=
          fun hh => hhub2 (hasLine_of_winner_map _ hu hh)
        by_cases g3 : (b.set i (some hu)).all Option.isSome = true
        · rw [minimax_full ai hu _ true (d + 1) g1 g2 g3]
          omega
        · obtain ⟨j, hj, hej⟩ := minimax_ai_exists_child ai hu (b.set i (some hu)) (d + 1) g1 g2 g3
          rw [hej]
          have e1 := emptyCells_set_length b i hu hi
          have e2 := emptyCells_set_length (b.set i (some hu)) j ai hj
          have hd3 : (d + 1 + 1) + (emptyCells ((b.set i (some hu)).set j (some ai))).length ≤ 10 := by
            omega
          rcases minimax_bounds ai hu ((b.set i (some hu)).set j (some ai)) false (d + 1 + 1) hd3
            with ⟨hlo, _⟩
          push_cast at hlo ⊢
          omega

/-! ### chooseBest / bestMoves lemmas -/

lemma bestStep_snd (score : Nat → Int) (acc : Option Int × List Nat) (idx x : Nat)
    (h : x ∈ (bestStep score acc idx).2) : x ∈ acc.2 ∨ x = idx := by
  rcases acc with ⟨ob, ms⟩
  cases ob with
  | none =>
    have he : (bestStep score (none, ms) idx).2 = [idx] := rfl
    rw [he, List.mem_singleton] at h
    exact Or.inr h
  | some best =>
    by_cases hc1 : best < score idx
    · have he : (bestStep score (some best, ms) idx).2 = [idx] := by
        simp only [bestStep]
        rw [if_pos hc1]
      rw [he, List.mem_singleton] at h
      exact Or.inr h
    · by_cases hc2 : score idx = best
      · have he : (bestStep score (some best, ms) idx).2 = ms ++ [idx] := by
          simp only [bestStep]
          rw [if_neg hc1, if_pos hc2]
        rw [he] at h
        rcases List.mem_append.mp h with h2 | h2
        · exact Or.inl h2
        · rw [List.mem_singleton] at h2
          exact Or.inr h2
      · have he : (bestStep score (some best, ms) idx).2 = ms := by
          simp only [bestStep]
          rw [if_neg hc1, if_neg hc2]
        rw [he] at h
        exact Or.inl h

lemma chooseBest_go_subset (score : Nat → Int) (x : Nat) :
    ∀ (l : List Nat) (acc : Option Int × List Nat),
      x ∈ (l.foldl (bestStep score) acc).2 → x ∈ acc.2 ∨ x ∈ l := by
  intro l
  induction l with
  | nil => intro acc hh; exact Or.inl hh
  | cons a tl ih =>
    intro acc hh
    simp only [List.foldl_cons] at hh
    rcases ih (bestStep score acc a) hh with h1 | h1
    · rcases bestStep_snd score acc a x h1 with h2 | h2
      · exact Or.inl h2
      · exact Or.inr (h2 ▸ List.mem_cons_self _ _)
    · exact Or.inr (List.mem_cons_of_mem _ h1)

lemma chooseBest_subset (score : Nat → Int) (l : List Nat) (x : Nat)
    (h : x ∈ (chooseBest score l).2) : x ∈ l := by
  rcases chooseBest_go_subset score x l (none, []) h with h1 | h1
  · exact absurd h1 (List.not_mem_nil x)
  · exact h1

lemma chooseBest_ne_nil_go (score : Nat → Int) :
    ∀ (l : List Nat) (v : Int) (ms : List Nat), ms ≠ [] →
      ∃ v2 ms2, l.foldl (bestStep score) (some v, ms) = (some v2, ms2) ∧ ms2 ≠ [] := by
  intro l
  induction l with
  | nil => intro v ms h; exact ⟨v, ms, rfl, h⟩
  | cons a tl ih =>
    intro v ms h
    simp only [List.foldl_cons]
    by_cases hc1 : v < score a
    · have hstep : bestStep score (some v, ms) a = (some (score a), [a]) := by
        simp only [bestStep]
        rw [if_pos hc1]
      rw [hstep]
      exact ih (score a) [a] (by simp)
    · by_cases hc2 : score a = v
      · have hstep : bestStep score (some v, ms) a = (some v, ms ++ [a]) := by
          simp only [bestStep]
          rw [if_neg hc1, if_pos hc2]
        rw [hstep]
        exact ih v (ms ++ [a]) (by simp)
      · have hstep : bestStep score (some v, ms) a = (some v, ms) := by
          simp only [bestStep]
          rw [if_neg hc1, if_neg hc2]
        rw [hstep]
        exact ih v ms h

lemma chooseBest_ne_nil (score : Nat → Int) (l : List Nat) (h : l ≠ []) :
    (chooseBest score l).2 ≠ [] := by
  cases l with
  | nil => exact absurd rfl h
  | cons a tl =>
    have hstep : bestStep score ((none : Option Int), ([] : List Nat)) a =
        (some (score a), [a]) := rfl
    rw [chooseBest]
    simp only [List.foldl_cons, hstep]
    obtain ⟨v2, ms2, he, hne2⟩ := chooseBest_ne_nil_go score tl (score a) [a] (by simp)
    rw [he]
    exact hne2

lemma chooseBest_after_best (score : Nat → Int) :
    ∀ (l : List Nat) (s0 : Int) (i0 : Nat), (∀ j ∈ l, score j < s0) →
      l.foldl (bestStep score) (some s0, [i0]) = (some s0, [i0]) := by
  intro l
  induction l with
  | nil => intro s0 i0 _; rfl
  | cons a tl ih =>
    intro s0 i0 h
    have ha : score a < s0 := h a (List.mem_cons_self _ _)
    have hstep : bestStep score (some s0, [i0]) a = (some s0, [i0]) := by
      simp only [bestStep]
      rw [if_neg (by omega : ¬ s0 < score a), if_neg (by omega : ¬ score a = s0)]
    simp only [List.foldl_cons, hstep]
    exact ih s0 i0 (fun j hj => h j (List.mem_cons_of_mem _ hj))

lemma chooseBest_unique_go (score : Nat → Int) :
    ∀ (l : List Nat) (i0 : Nat), i0 ∈ l → l.Nodup →
      (∀ j ∈ l, j ≠ i0 → score j < score i0) →
      ∀ acc : Option Int × List Nat,
        (acc.1 = none ∨ ∃ v, acc.1 = some v ∧ v < score i0) →
        l.foldl (bestStep score) acc = (some (score i0), [i0]) := by
  intro l
  induction l with
  | nil => intro i0 h; exact absurd h (List.not_mem_nil _)
  | cons a tl ih =>
    intro i0 hi0 hnd hlt acc hacc
    rcases List.nodup_cons.mp hnd with ⟨hna, hnd2⟩
    rcases acc with ⟨ob, ms⟩
    by_cases hai : a = i0
    · subst hai
      have hstep : bestStep score (ob, ms) a = (some (score a), [a]) := by
        cases ob with
        | none => rfl
        | some v =>
          rcases hacc with h1 | ⟨v2, hv2, hlt2⟩
          · exact Option.noConfusion h1
          · have hv : v = v2 := Option.some.inj hv2
            simp only [bestStep]
            rw [if_pos (show v < score a from hv ▸ hlt2)]
      simp only [List.foldl_cons, hstep]
      exact chooseBest_after_best score tl (score a) a
        (fun j hj => hlt j (List.mem_cons_of_mem _ hj) (fun e => hna (e ▸ hj)))
    · have hi0tl : i0 ∈ tl := by
        rcases List.mem_cons.mp hi0 with h1 | h1
        · exact absurd h1.symm hai
        · exact h1
      have hsa : score a < score i0 := hlt a (List.mem_cons_self _ _) hai
      have hinv : (bestStep score (ob, ms) a).1 = none ∨
          ∃ v, (bestStep score (ob, ms) a).1 = some v ∧ v < score i0 := by
        cases ob with
        | none => exact Or.inr ⟨score a, rfl, hsa⟩
        | some v =>
          rcases hacc with h1 | ⟨v2, hv2, hlt2⟩
          · exact Option.noConfusion h1
          · have hv : v = v2 := Option.some.inj hv2
            subst hv
            by_cases hc1 : v < score a
            · refine Or.inr ⟨score a, ?_, hsa⟩
              simp only [bestStep]
              rw [if_pos hc1]
            · by_cases hc2 : score a = v
              · refine Or.inr ⟨v, ?_, hlt2⟩
                simp only [bestStep]
                rw [if_neg hc1, if_pos hc2]
              · refine Or.inr ⟨v, ?_, hlt2⟩
                simp only [bestStep]
                rw [if_neg hc1, if_neg hc2]
      simp only [List.foldl_cons]
      exact ih i0 hi0tl hnd2 (fun j hj hji => hlt j (List.mem_cons_of_mem _ hj) hji)
        (bestStep score (ob, ms) a) hinv

lemma chooseBest_unique (score : Nat → Int) (l : List Nat) (i0 : Nat)
    (hi0 : i0 ∈ l) (hnd : l.Nodup) (hlt : ∀ j ∈ l, j ≠ i0 → score j < score i0) :
    chooseBest score l = (some (score i0), [i0]) :=
  chooseBest_unique_go score l i0 hi0 hnd hlt (none, []) (Or.inl rfl)

lemma bestMoves_subset (b : Board) (ai hu : Mark) (x : Nat) (h : x ∈ bestMoves b ai hu) :
    x ∈ emptyCells b :=
  chooseBest_subset _ _ x h

lemma bestMoves_ne_nil (b : Board) (ai hu : Mark) (h : emptyCells b ≠ []) :
    bestMoves b ai hu ≠ [] :=
  chooseBest_ne_nil _ _ h

lemma bestMoves_unique (b : Board) (ai hu : Mark) (c : Nat) (hc : c ∈ emptyCells b)
    (hlt : ∀ j ∈ emptyCells b, j ≠ c →
      minimax (b.set j (some ai)) false ai hu 0 < minimax (b.set c (some ai)) false ai hu 0) :
    bestMoves b ai hu = [c] := by
  rw [bestMoves, chooseBest_unique _ _ c hc (emptyCells_nodup b) hlt]

lemma getBestMove_of_unique (b : Board) (ai hu : Mark) (c r : Nat)
    (hc : c ∈ emptyCells b) (hbm : bestMoves b ai hu = [c]) :
    getBestMove b ai hu r = some c := by
  have hne : emptyCells b ≠ [] := fun hh => by
    rw [hh] at hc
    exact List.not_mem_nil c hc
  rw [getBestMove, if_neg hne, hbm, List.length_singleton, Nat.mod_one]
  rfl

lemma get?_lt (l : List Nat) : ∀ i : Nat, i < l.length → ∃ a, l.get? i = some a ∧ a ∈ l := by
  induction l with
  | nil => intro i h; simp at h
  | cons x tl ih =>
    intro i h
    cases i with
    | zero => exact ⟨x, rfl, List.mem_cons_self _ _⟩
    | succ j =>
      obtain ⟨a, ha, hm⟩ := ih j (by simpa using h)
      exact ⟨a, ha, List.mem_cons_of_mem _ hm⟩

/-! ### Scenario lemmas: unique block, unique immediate win -/

/-- If the board has no completed line, the human has exactly one immediate
winning move `c`, and the AI has no immediate winning move, then `c` is the
unique maximal-scoring root move: `bestMoves` is exactly `[c]`. -/
lemma bestMoves_block (ai hu : Mark) (b : Board) (c : Nat) (hne : ai ≠ hu)
    (h9 : b.length = 9) (hw : getWinner b = none)
    (hc : c ∈ emptyCells b) (hcw : HasLine (b.set c (some hu)) hu)
    (huniq : ∀ i ∈ emptyCells b, HasLine (b.set i (some hu)) hu → i = c)
    (hnoai : ∀ i ∈ emptyCells b, ¬ HasLine (b.set i (some ai)) ai) :
    bestMoves b ai hu = [c] := by
  have hnow : ∀ m, ¬ HasLine b m := (getWinner_eq_none b).mp hw
  have hclen : c < b.length := ((mem_emptyCells b c).mp hc).1
  have hlen9 : (emptyCells b).length ≤ 9 := h9 ▸ emptyCells_length_le b
  have hblock : (-8 : Int) ≤ minimax (b.set c (some ai)) false ai hu 0 := by
    have hdec := emptyCells_set_length b c ai hc
    have hd : 0 + (emptyCells (b.set c (some ai))).length ≤ 10 := by omega
    have hhu2 : ¬ HasLine (b.set c (some ai)) hu := fun hh =>
      hnow hu (hasLine_set_elim b c (some ai) hu (fun e => hne (Option.some.inj e)) hh)
    have hall2 : ∀ i ∈ emptyCells (b.set c (some ai)),
        ¬ HasLine ((b.set c (some ai)).set i (some hu)) hu := by
      intro i hi hh
      obtain ⟨hic, hib⟩ := mem_emptyCells_set_rev b c i ai hclen hi
      rw [List.set_comm (some ai) (some hu) b (fun e => hic e.symm)] at hh
      have hh2 := hasLine_set_elim (b.set i (some hu)) c (some ai) hu
        (fun e => hne (Option.some.inj e)) hh
      exact hic (huniq i hib hh2)
    have hB := minimax_no_threat_ge ai hu (b.set c (some ai)) 0 hd (by omega) hhu2 hall2
    push_cast at hB
    omega
  have hother : ∀ j ∈ emptyCells b, j ≠ c →
      minimax (b.set j (some ai)) false ai hu 0 ≤ -9 := by
    intro j hj hjc
    have hwj : getWinner (b.set j (some ai)) = none := by
      rw [getWinner_eq_none]
      intro m hm
      by_cases hmai : m = ai
      · subst hmai
        exact hnoai j hj hm
      · exact hnow m (hasLine_set_elim b j (some ai) m
          (fun e => hmai (Option.some.inj e).symm) hm)
    have hnowj : ∀ m, ¬ HasLine (b.set j (some ai)) m := (getWinner_eq_none _).mp hwj
    have hcj : c ∈ emptyCells (b.set j (some ai)) :=
      mem_emptyCells_set b j c (some ai) hjc hc
    have h3j : ¬ (b.set j (some ai)).all Option.isSome = true := by
      intro hh
      have hnil : emptyCells (b.set j (some ai)) = [] := (emptyCells_eq_nil _).mpr hh
      rw [hnil] at hcj
      exact List.not_mem_nil c hcj
    have h1j : ¬ (getWinner (b.set j (some ai))).map Prod.fst = some ai := by
      rw [hwj]
      exact fun hh => Option.noConfusion hh
    have h2j : ¬ (getWinner (b.set j (some ai))).map Prod.fst = some hu := by
      rw [hwj]
      exact fun hh => Option.noConfusion hh
    have hle := minimax_hu_le_child ai hu (b.set j (some ai)) 0 c h1j h2j h3j hcj
    have hwc : (getWinner ((b.set j (some ai)).set c (some hu))).map Prod.fst = some hu := by
      have hjnotline : (b.set c (some hu)).getD j none ≠ some hu := by
        rw [getD_set_ne b c j (some hu) (fun e => hjc e.symm)]
        rw [((mem_emptyCells b j).mp hj).2]
        exact fun hh => Option.noConfusion hh
      have hhl : HasLine ((b.set j (some ai)).set c (some hu)) hu := by
        rw [List.set_comm (some ai) (some hu) b (fun e => hjc e)]
        exact hasLine_set_keep (b.set c (some hu)) j (some ai) hu hjnotline hcw
      have huniq2 : ∀ m2 t2, t2 ∈ LINES →
          LineAll ((b.set j (some ai)).set c (some hu)) m2 t2 → m2 = hu := by
        intro m2 t2 ht2 hla
        by_cases hm2 : m2 = hu
        · exact hm2
        · exfalso
          have hla2 : LineAll (b.set j (some ai)) m2 t2 :=
            lineAll_set_elim _ c (some hu) m2 t2 (fun e => hm2 (Option.some.inj e).symm) hla
          exact hnowj m2 ⟨t2, ht2, hla2⟩
      obtain ⟨t0, hg, _, _⟩ := getWinner_mark _ hu hhl huniq2
      rw [hg]
      rfl
    have h1c : ¬ (getWinner ((b.set j (some ai)).set c (some hu))).map Prod.fst = some ai := by
      intro hh
      rw [hwc] at hh
      exact hne (Option.some.inj hh).symm
    have hch := minimax_winner_hu ai hu ((b.set j (some ai)).set c (some hu)) true (0 + 1)
      h1c hwc
    rw [hch] at hle
    push_cast at hle
    omega
  apply bestMoves_unique b ai hu c hc
  intro j hj hjc
  have h1 := hother j hj hjc
  omega

/-- If the board has no completed line and the AI has exactly one immediate
winning move `c`, then `c` is the unique maximal-scoring root move:
`bestMoves` is exactly `[c]`. -/
lemma bestMoves_win (ai hu : Mark) (b : Board) (c : Nat)
    (h9 : b.length = 9) (hw : getWinner b = none)
    (hc : c ∈ emptyCells b) (hcw : HasLine (b.set c (some ai)) ai)
    (huniq : ∀ i ∈ emptyCells b, HasLine (b.set i (some ai)) ai → i = c) :
    bestMoves b ai hu = [c] := by
  have hnow : ∀ m, ¬ HasLine b m := (getWinner_eq_none b).mp hw
  have hlen9 : (emptyCells b).length ≤ 9 := h9 ▸ emptyCells_length_le b
  have hwinc : (getWinner (b.set c (some ai))).map Prod.fst = some ai := by
    have huniq2 : ∀ m2 t2, t2 ∈ LINES → LineAll (b.set c (some ai)) m2 t2 → m2 = ai := by
      intro m2 t2 ht2 hla
      by_cases hm2 : m2 = ai
      · exact hm2
      · exfalso
        have hla2 : LineAll b m2 t2 :=
          lineAll_set_elim b c (some ai) m2 t2 (fun e => hm2 (Option.some.inj e).symm) hla
        exact hnow m2 ⟨t2, ht2, hla2⟩
    obtain ⟨t0, hg, _, _⟩ := getWinner_mark _ ai hcw huniq2
    rw [hg]
    rfl
  have hscorec : minimax (b.set c (some ai)) false ai hu 0 = 10 := by
    rw [minimax_winner_ai ai hu _ false 0 hwinc]
    norm_num
  have hother : ∀ j ∈ emptyCells b, j ≠ c →
      minimax (b.set j (some ai)) false ai hu 0 ≤ 9 := by
    intro j hj hjc
    have hwj : getWinner (b.set j (some ai)) = none := by
      rw [getWinner_eq_none]
      intro m hm
      by_cases hmai : m = ai
      · subst hmai
        exact hjc (huniq j hj hm)
      · exact hnow m (hasLine_set_elim b j (some ai) m
          (fun e => hmai (Option.some.inj e).symm) hm)
    have hcj : c ∈ emptyCells (b.set j (some ai)) :=
      mem_emptyCells_set b j c (some ai) hjc hc
    have h3j : ¬ (b.set j (some ai)).all Option.isSome = true := by
      intro hh
      have hnil : emptyCells (b.set j (some ai)) = [] := (emptyCells_eq_nil _).mpr hh
      rw [hnil] at hcj
      exact List.not_mem_nil c hcj
    have h1j : ¬ (getWinner (b.set j (some ai))).map Prod.fst = some ai := by
      rw [hwj]
      exact fun hh => Option.noConfusion hh
    have h2j : ¬ (getWinner (b.set j (some ai))).map Prod.fst = some hu := by
      rw [hwj]
      exact fun hh => Option.noConfusion hh
    obtain ⟨i, hi, he⟩ := minimax_hu_exists_child ai hu (b.set j (some ai)) 0 h1j h2j h3j
    rw [he]
    have e1 := emptyCells_set_length b j ai hj
    have e2 := emptyCells_set_length (b.set j (some ai)) i hu hi
    have hd : (0 + 1) + (emptyCells ((b.set j (some ai)).set i (some hu))).length ≤ 10 := by
      omega
    rcases minimax_bounds ai hu ((b.set j (some ai)).set i (some hu)) true (0 + 1) hd
      with ⟨_, hhi⟩
    push_cast at hhi ⊢
    omega
  apply bestMoves_unique b ai hu c hc
  intro j hj hjc
  have h1 := hother j hj hjc
  omega

/-! ### Claim theorems -/

/-- C1: for every 9-cell board that contains a completed line of one mark and
no completed line of the other mark, `getWinner` returns that mark as the
winner together with the index triple of a completed line of that mark. -/
theorem getWinner_one_mark_line (b : Board) (m : Mark) (h9 : b.length = 9)
    (hw : HasLine b m) (hn : ¬ HasLine b m.other) :
    ∃ t, getWinner b = some (m, t) ∧ t ∈ LINES ∧ LineAll b m t := by
  apply getWinner_mark b m hw
  intro m2 t ht hla
  by_cases hm2 : m2 = m
  · exact hm2
  · exfalso
    have ho : m2 = m.other := by
      cases m <;> cases m2 <;> simp_all [Mark.other]
    apply hn
    rw [← ho]
    exact ⟨t, ht, hla⟩

/-- C1 witness: a board with a completed X top row and no O line. -/
theorem getWinner_one_mark_line_w :
    ∃ t, getWinner [some Mark.X, some Mark.X, some Mark.X, some Mark.O, some Mark.O,
        none, none, none, none] = some (Mark.X, t) ∧ t ∈ LINES ∧
      LineAll [some Mark.X, some Mark.X, some Mark.X, some Mark.O, some Mark.O,
        none, none, none, none] Mark.X t :=
  getWinner_one_mark_line _ Mark.X (by decide) (by decide) (by decide)

/-- C2: `isDraw` returns true exactly when every cell is occupied and no
completed line exists. -/
theorem isDraw_iff_full_no_line (b : Board) (h9 : b.length = 9) :
    isDraw b = true ↔
      ((∀ i, i < 9 → b.getD i none ≠ none) ∧ ∀ m, ¬ HasLine b m) := by
  rw [isDraw, Bool.and_eq_true]
  constructor
  · rintro ⟨hall, hwn⟩
    have hw : getWinner b = none := Option.isNone_iff_eq_none.mp hwn
    refine ⟨?_, (getWinner_eq_none b).mp hw⟩
    intro i hi hnone
    have hmem : i ∈ emptyCells b := (mem_emptyCells b i).mpr ⟨by rw [h9]; exact hi, hnone⟩
    have hnil : emptyCells b = [] := (emptyCells_eq_nil b).mpr hall
    rw [hnil] at hmem
    exact List.not_mem_nil i hmem
  · rintro ⟨hocc, hnl⟩
    constructor
    · rw [← emptyCells_eq_nil]
      by_contra hne
      obtain ⟨i, hi⟩ := List.exists_mem_of_ne_nil _ hne
      rcases (mem_emptyCells b i).mp hi with ⟨hlt, hnone⟩
      rw [h9] at hlt
      exact hocc i hlt hnone
    · rw [Option.isNone_iff_eq_none, getWinner_eq_none]
      exact hnl

/-- C2 witness: a fully-occupied board with no completed line is a draw, and
conversely the evaluator reports it as such. -/
theorem isDraw_iff_full_no_line_w :
    (∀ i, i < 9 → ([some Mark.X, some Mark.O, some Mark.X, some Mark.O, some Mark.X,
        some Mark.O, some Mark.O, some Mark.X, some Mark.O] : Board).getD i none ≠ none) ∧
    ∀ m, ¬ HasLine [some Mark.X, some Mark.O, some Mark.X, some Mark.O, some Mark.X,
        some Mark.O, some Mark.O, some Mark.X, some Mark.O] m :=
  (isDraw_iff_full_no_line _ (by decide)).mp (by decide)

/-- C3: the move selector returns `none` if and only if the board has zero
empty cells, for every outcome of the random tie-break. -/
theorem getBestMove_none_iff (b : Board) (ai hu : Mark) (r : Nat) (h9 : b.length = 9) :
    getBestMove b ai hu r = none ↔ emptyCells b = [] := by
  constructor
  · intro h
    by_contra hne
    have hbm : bestMoves b ai hu ≠ [] := bestMoves_ne_nil b ai hu hne
    have hpos : 0 < (bestMoves b ai hu).length := List.length_pos.mpr hbm
    obtain ⟨a, ha, _⟩ := get?_lt (bestMoves b ai hu) _ (Nat.mod_lt r hpos)
    rw [getBestMove, if_neg hne, ha] at h
    exact Option.noConfusion h
  · intro h
    rw [getBestMove, if_pos h]

/-- C3 witness: on a fully-occupied board the selector returns `none`. -/
theorem getBestMove_none_iff_w :
    getBestMove [some Mark.X, some Mark.O, some Mark.X, some Mark.O, some Mark.X,
      some Mark.O, some Mark.O, some Mark.X, some Mark.O] Mark.O Mark.X 3 = none :=
  (getBestMove_none_iff _ Mark.O Mark.X 3 (by decide)).mpr (by decide)

/-- C4: on a 9-cell board with at least one empty cell the selector returns an
index in 0..8 whose cell is empty on the input board, for every outcome of the
random tie-break. -/
theorem getBestMove_returns_empty (b : Board) (ai hu : Mark) (r : Nat) (h9 : b.length = 9)
    (hne : emptyCells b ≠ []) :
    ∃ i, getBestMove b ai hu r = some i ∧ i < 9 ∧ b.getD i none = none := by
  have hbm : bestMoves b ai hu ≠ [] := bestMoves_ne_nil b ai hu hne
  have hpos : 0 < (bestMoves b ai hu).length := List.length_pos.mpr hbm
  obtain ⟨a, ha, hmem⟩ := get?_lt (bestMoves b ai hu) _ (Nat.mod_lt r hpos)
  have hemp := bestMoves_subset b ai hu a hmem
  rcases (mem_emptyCells b a).mp hemp with ⟨hlt, hnone⟩
  refine ⟨a, ?_, ?_, hnone⟩
  · rw [getBestMove, if_neg hne]
    exact ha
  · rw [h9] at hlt
    exact hlt

/-- C4 witness: a board with exactly one empty cell. -/
theorem getBestMove_returns_empty_w :
    ∃ i, getBestMove [some Mark.X, some Mark.O, some Mark.X, some Mark.O, some Mark.X,
        some Mark.O, some Mark.O, some Mark.X, none] Mark.O Mark.X 5 = some i ∧
      i < 9 ∧ ([some Mark.X, some Mark.O, some Mark.X, some Mark.O, some Mark.X,
        some Mark.O, some Mark.O, some Mark.X, none] : Board).getD i none = none :=
  getBestMove_returns_empty _ Mark.O Mark.X 5 (by decide) (by decide)

/-- C5 (amended): at a terminal position the minimax score evaluated at depth
`d` is `10 - d` when the AI mark has a completed line and the human mark has
none, `d - 10` when the human mark has a completed line and the AI mark has
none, and `0` on a fully-occupied board with no completed line; smaller depths
give strictly higher win scores and strictly lower loss scores. -/
theorem minimax_terminal_scores (ai hu : Mark) (b : Board) (t : Bool) (d : Nat)
    (h9 : b.length = 9) :
    (HasLine b ai → ¬ HasLine b hu → minimax b t ai hu d = 10 - (d : Int)) ∧
    (HasLine b hu → ¬ HasLine b ai → minimax b t ai hu d = (d : Int) - 10) ∧
    (b.all Option.isSome = true → (∀ m, ¬ HasLine b m) → minimax b t ai hu d = 0) ∧
    (∀ d1 d2 : Nat, d1 < d2 →
      10 - (d2 : Int) < 10 - (d1 : Int) ∧ (d1 : Int) - 10 < (d2 : Int) - 10) := by
  refine ⟨?_, ?_, ?_, ?_⟩
  · intro hwa hnh
    by_cases hne : ai = hu
    · subst hne
      exact absurd hwa hnh
    · have huniq : ∀ m2 t2, t2 ∈ LINES → LineAll b m2 t2 → m2 = ai := by
        intro m2 t2 ht2 hla
        rcases mark_cases ai hu m2 hne with h1 | h1
        · exact h1
        · exact absurd (h1 ▸ (⟨t2, ht2, hla⟩ : HasLine b m2)) hnh
      obtain ⟨t0, hg, _, _⟩ := getWinner_mark b ai hwa huniq
      have hmap : (getWinner b).map Prod.fst = some ai := by rw [hg]; rfl
      exact minimax_winner_ai ai hu b t d hmap
  · intro hwh hna
    by_cases hne : ai = hu
    · subst hne
      exact absurd hwh hna
    · have huniq : ∀ m2 t2, t2 ∈ LINES → LineAll b m2 t2 → m2 = hu := by
        intro m2 t2 ht2 hla
        rcases mark_cases ai hu m2 hne with h1 | h1
        · exact absurd (h1 ▸ (⟨t2, ht2, hla⟩ : HasLine b m2)) hna
        · exact h1
      obtain ⟨t0, hg, _, _⟩ := getWinner_mark b hu hwh huniq
      have hmap : (getWinner b).map Prod.fst = some hu := by rw [hg]; rfl
      have h1 : ¬ (getWinner b).map Prod.fst = some ai := by
        intro hh
        rw [hmap] at hh
        exact hne (Option.some.inj hh).symm
      exact minimax_winner_hu ai hu b t d h1 hmap
  · intro hfull hnl
    have hw : getWinner b = none := (getWinner_eq_none b).mpr hnl
    have h1 : ¬ (getWinner b).map Prod.fst = some ai := by
      rw [hw]
      exact fun hh => Option.noConfusion hh
    have h2 : ¬ (getWinner b).map Prod.fst = some hu := by
      rw [hw]
      exact fun hh => Option.noConfusion hh
    exact minimax_full ai hu b t d h1 h2 hfull
  · intro d1 d2 h
    constructor <;> omega

/-- C5 counterexample: on a board where both marks have completed lines the
evaluator reports the line found first (here the human line), so a board on
which the AI mark has a completed line is not always scored `10 - depth`. -/
theorem minimax_terminal_scores_cex :
    HasLine [some Mark.X, some Mark.X, some Mark.X, some Mark.O, some Mark.O, some Mark.O,
      none, none, none] Mark.O ∧
    minimax [some Mark.X, some Mark.X, some Mark.X, some Mark.O, some Mark.O, some Mark.O,
      none, none, none] true Mark.O Mark.X 0 ≠ 10 - ((0 : Nat) : Int) := by
  constructor
  · decide
  · decide

/-- C5 witness: an AI (O) top-row win scores `10 - 0` at depth 0. -/
theorem minimax_terminal_scores_w :
    minimax [some Mark.O, some Mark.O, some Mark.O, some Mark.X, some Mark.X, none,
      none, none, none] true Mark.O Mark.X 0 = 10 - ((0 : Nat) : Int) :=
  (minimax_terminal_scores Mark.O Mark.X _ true 0 (by decide)).1 (by decide) (by decide)

/-- The board of the concrete spec scenario `[X,X,_, _,O,_, _,_,_]`:
the human threatens the top row at index 2. -/
def boardTopThreat : Board :=
  [some Mark.X, some Mark.X, none, none, some Mark.O, none, none, none, none]

/-- The board of the concrete spec scenario `[O,O,_, X,X,_, _,_,_]`:
the AI can win at index 2 while the human threatens at index 5. -/
def boardDoubleAttack : Board :=
  [some Mark.O, some Mark.O, none, some Mark.X, some Mark.X, none, none, none, none]

/-- C6 (amended): on a 9-cell board with no completed line, on which the human
mark has exactly one immediate winning move `c` and the AI mark has no
immediate winning move, the selector returns the blocking index `c` for every
outcome of the random tie-break. -/
theorem getBestMove_blocks (ai hu : Mark) (b : Board) (c r : Nat) (hne : ai ≠ hu)
    (h9 : b.length = 9) (hw : getWinner b = none)
    (hc : c ∈ emptyCells b) (hcw : HasLine (b.set c (some hu)) hu)
    (huniq : ∀ i ∈ emptyCells b, HasLine (b.set i (some hu)) hu → i = c)
    (hnoai : ∀ i ∈ emptyCells b, ¬ HasLine (b.set i (some ai)) ai) :
    getBestMove b ai hu r = some c :=
  getBestMove_of_unique b ai hu c r hc
    (bestMoves_block ai hu b c hne h9 hw hc hcw huniq hnoai)

/-- C6 counterexample: on `boardDoubleAttack` with ai = O, human = X the human
threatens to win at 5 and playing 5 would block that threat, yet the selector
returns 2 (completing the AI's own win), which is not a blocking index: after
it the human can still win at 5. -/
theorem getBestMove_blocks_cex :
    (5 ∈ emptyCells boardDoubleAttack ∧
      HasLine (boardDoubleAttack.set 5 (some Mark.X)) Mark.X) ∧
    (∀ i ∈ emptyCells (boardDoubleAttack.set 5 (some Mark.O)),
      ¬ HasLine ((boardDoubleAttack.set 5 (some Mark.O)).set i (some Mark.X)) Mark.X) ∧
    getBestMove boardDoubleAttack Mark.O Mark.X 0 = some 2 ∧
    (2 : Nat) ≠ 5 ∧
    HasLine ((boardDoubleAttack.set 2 (some Mark.O)).set 5 (some Mark.X)) Mark.X := by
  refine ⟨⟨by decide, by decide⟩, by decide, ?_, by decide, by decide⟩
  apply getBestMove_of_unique _ _ _ 2 0 (by decide)
  exact bestMoves_win Mark.O Mark.X boardDoubleAttack 2 (by decide) (by decide) (by decide)
    (by decide) (by decide)

/-- C6 witness: on `boardTopThreat` the unique human threat is at 2, the AI has
no immediate win, and the selector blocks at 2. -/
theorem getBestMove_blocks_w :
    getBestMove boardTopThreat Mark.O Mark.X 5 = some 2 :=
  getBestMove_blocks Mark.O Mark.X boardTopThreat 2 5 (by decide) (by decide) (by decide)
    (by decide) (by decide) (by decide) (by decide)

/-- C7: on `[X,X,_, _,O,_, _,_,_]` with ai = O and human = X, index 2 is the
unique maximal-scoring root move, and the selector returns 2 for every outcome
of the random tie-break. -/
theorem getBestMove_top_row_block :
    bestMoves boardTopThreat Mark.O Mark.X = [2] ∧
    ∀ r : Nat, getBestMove boardTopThreat Mark.O Mark.X r = some 2 := by
  have hbm : bestMoves boardTopThreat Mark.O Mark.X = [2] :=
    bestMoves_block Mark.O Mark.X boardTopThreat 2 (by decide) (by decide) (by decide)
      (by decide) (by decide) (by decide) (by decide)
  exact ⟨hbm, fun r => getBestMove_of_unique _ _ _ 2 r (by decide) hbm⟩

/-- C8: on `[O,O,_, X,X,_, _,_,_]` with ai = O and human = X, the selector
completes the AI's own top-row win at index 2 (rather than blocking the
human's middle-row threat at 5) for every outcome of the random tie-break. -/
theorem getBestMove_takes_win :
    ∀ r : Nat, getBestMove boardDoubleAttack Mark.O Mark.X r = some 2 := by
  have hbm : bestMoves boardDoubleAttack Mark.O Mark.X = [2] :=
    bestMoves_win Mark.O Mark.X boardDoubleAttack 2 (by decide) (by decide) (by decide)
      (by decide) (by decide)
  exact fun r => getBestMove_of_unique _ _ _ 2 r (by decide) hbm

/-- C9: termination of the search.  Each recursive call of `minimax` is made
on a board with strictly fewer empty cells; any fuel at least the number of
empty cells computes the same value as `minimax` (so the recursion is
well-founded and the fuel is a ghost parameter); and at a board with a winner
or with no empty cell the value is fuel-independent, i.e. the recursion stops
there. -/
theorem minimax_termination (ai hu : Mark) (hne : ai ≠ hu) :
    (∀ (b : Board) (i : Nat) (m : Mark), i ∈ emptyCells b →
      (emptyCells (b.set i (some m))).length < (emptyCells b).length) ∧
    (∀ (f : Nat) (b : Board) (t : Bool) (d : Nat), (emptyCells b).length ≤ f →
      minimaxFuel ai hu f b t d = minimax b t ai hu d) ∧
    (∀ (f : Nat) (b : Board) (t : Bool) (d : Nat),
      getWinner b ≠ none ∨ emptyCells b = [] →
      minimaxFuel ai hu f b t d = minimaxFuel ai hu 0 b t d) := by
  refine ⟨?_, ?_, ?_⟩
  · exact fun b i m hi => emptyCells_set_lt b i m hi
  · intro f b t d hf
    rw [minimax]
    exact minimaxFuel_congr ai hu f _ b t d hf (le_refl _)
  · intro f b t d hterm
    rcases hterm with hwin | hnil
    · cases hg : getWinner b with
      | none => exact absurd hg hwin
      | some p =>
        obtain ⟨m, t2⟩ := p
        have hmap : (getWinner b).map Prod.fst = some m := by rw [hg]; rfl
        rcases mark_cases ai hu m hne with h1 | h1
        · rw [h1] at hmap
          rw [minimaxFuel_winner_ai ai hu f b t d hmap,
            minimaxFuel_winner_ai ai hu 0 b t d hmap]
        · rw [h1] at hmap
          by_cases ha : (getWinner b).map Prod.fst = some ai
          · rw [minimaxFuel_winner_ai ai hu f b t d ha,
              minimaxFuel_winner_ai ai hu 0 b t d ha]
          · rw [minimaxFuel_winner_hu ai hu f b t d ha hmap,
              minimaxFuel_winner_hu ai hu 0 b t d ha hmap]
    · have hlen : (emptyCells b).length = 0 := by rw [hnil]; rfl
      exact minimaxFuel_congr ai hu f 0 b t d (by omega) (by omega)

/-- C9 witness: placing a mark on an empty cell of the empty board strictly
decreases the number of empty cells. -/
theorem minimax_termination_w :
    (emptyCells ((List.replicate 9 (none : Cell)).set 4 (some Mark.X))).length <
      (emptyCells (List.replicate 9 (none : Cell))).length :=
  (minimax_termination Mark.O Mark.X (by decide)).1 (List.replicate 9 (none : Cell)) 4
    Mark.X (by decide)

lemma findLine_split (b : Board) :
    ∀ (l : List (Nat × Nat × Nat)) (m : Mark) (t : Nat × Nat × Nat),
      findLine b l = some (m, t) →
      ∃ pre post, l = pre ++ t :: post ∧ ∀ t2 ∈ pre, ∀ m2, ¬ LineAll b m2 t2 := by
  intro l
  induction l with
  | nil => intro m t h; exact Option.noConfusion h
  | cons t0 rest ih =>
    intro m t h
    obtain ⟨x, y, z⟩ := t0
    cases hx : b.getD x none with
    | none =>
      simp only [findLine, hx] at h
      obtain ⟨pre, post, he, hp⟩ := ih m t h
      refine ⟨(x, y, z) :: pre, post, by rw [he, List.cons_append], ?_⟩
      intro t2 ht2 m2
      rcases List.mem_cons.mp ht2 with h1 | h1
      · subst h1
        intro hla
        rw [hla.1] at hx
        exact Option.noConfusion hx
      · exact hp t2 h1 m2
    | some v =>
      by_cases hyz : b.getD y none = some v ∧ b.getD z none = some v
      · simp only [findLine, hx, if_pos hyz] at h
        obtain ⟨hm, ht⟩ := Prod.mk.injEq .. ▸ Option.some.inj h
        subst hm
        subst ht
        refine ⟨[], rest, rfl, ?_⟩
        intro t2 ht2
        exact absurd ht2 (List.not_mem_nil _)
      · simp only [findLine, hx, if_neg hyz] at h
        obtain ⟨pre, post, he, hp⟩ := ih m t h
        refine ⟨(x, y, z) :: pre, post, by rw [he, List.cons_append], ?_⟩
        intro t2 ht2 m2
        rcases List.mem_cons.mp ht2 with h1 | h1
        · subst h1
          intro hla
          have hmv : m2 = v := Option.some.inj (hla.1.symm.trans hx)
          subst hmv
          exact hyz ⟨hla.2.1, hla.2.2⟩
        · exact hp t2 h1 m2

/-- C10: `getWinner` reports exactly the first completed line in the fixed
order of `LINES` (rows `(0,1,2)`, `(3,4,5)`, `(6,7,8)`, then columns
`(0,3,6)`, `(1,4,7)`, `(2,5,8)`, then diagonals `(0,4,8)`, `(2,4,6)`), and a
reported winning line never consists of empty cells. -/
theorem getWinner_first_match (b : Board) (m : Mark) (t : Nat × Nat × Nat) :
    LINES = [(0, 1, 2), (3, 4, 5), (6, 7, 8), (0, 3, 6), (1, 4, 7), (2, 5, 8),
      (0, 4, 8), (2, 4, 6)] ∧
    (getWinner b = some (m, t) ↔
      (LineAll b m t ∧ ∃ pre post, LINES = pre ++ t :: post ∧
        ∀ t2 ∈ pre, ∀ m2, ¬ LineAll b m2 t2)) ∧
    (getWinner b = some (m, t) →
      b.getD t.1 none ≠ none ∧ b.getD t.2.1 none ≠ none ∧ b.getD t.2.2 none ≠ none) := by
  refine ⟨rfl, ⟨?_, ?_⟩, ?_⟩
  · intro h
    exact ⟨(getWinner_some b m t h).2, findLine_split b LINES m t h⟩
  · rintro ⟨hla, pre, post, hsplit, hpre⟩
    rw [getWinner, hsplit]
    exact findLine_first b pre post m t hpre hla
  · intro h
    have hla := (getWinner_some b m t h).2
    refine ⟨?_, ?_, ?_⟩
    · rw [hla.1]; exact fun hh => Option.noConfusion hh
    · rw [hla.2.1]; exact fun hh => Option.noConfusion hh
    · rw [hla.2.2]; exact fun hh => Option.noConfusion hh

/-- C10 witness: on a board with two simultaneous completed lines (X top row,
O middle row) the reported line is the first in the fixed order. -/
theorem getWinner_first_match_w :
    getWinner [some Mark.X, some Mark.X, some Mark.X, some Mark.O, some Mark.O,
      some Mark.O, none, none, none] = some (Mark.X, (0, 1, 2)) :=
  ((getWinner_first_match _ Mark.X (0, 1, 2)).2.1).mpr
    ⟨by decide, [], [(3, 4, 5), (6, 7, 8), (0, 3, 6), (1, 4, 7), (2, 5, 8), (0, 4, 8),
      (2, 4, 6)], rfl, by intro t2 ht2; exact absurd ht2 (List.not_mem_nil _)⟩
